import Mathlib

/-!
Verification of the static-analyzer core of an AI-driven code reviewer.

The analyzer parses Python source into an AST, detects unused variables and
unused imports (`error_detector.py`), and computes a heuristic complexity
score (`code_parser.py`, `ai_suggestor.py`).  We embed the subset of the
Python AST consumed by those walks as a tagged variant type, model
`ast.walk` (a breadth-first traversal using a FIFO queue), Python `dict`
insertion semantics (insertion-ordered, last write wins for the value), and
translate the analysis functions directly from the source.

Python's builtin `ast.parse` is an external grammar engine, not part of the
repository; it is modelled as an abstract function `String → Except PyExn Node`
wherever a component calls it, and concrete scenarios supply the tree that
the real parser produces for the given source text.
-/

namespace CodeRev

/-- Expression context of an `ast.Name` node (`Load`, `Store`, `Del`). -/
inductive Ctx where
  | load
  | store
  | del
deriving DecidableEq, Repr

/-- The subset of Python AST node kinds consumed by the analyzer
(assignment, import, import-from, function/class definitions, conditionals,
loops, try/handler, lambda, name reference, attribute access, call,
return/expression statements, constants).  Each statement node carries its
`lineno`; `Module` has none in CPython, so the `module` constructor carries
only its body. -/
inductive Node where
  | module (body : List Node)
  | functionDef (nm : String) (args : List String) (body : List Node) (lineno : Nat)
  | classDef (nm : String) (body : List Node) (lineno : Nat)
  | assign (targets : List Node) (value : Node) (lineno : Nat)
  | imprt (names : List (String × Option String)) (lineno : Nat)
  | importFrom (mod : Option String) (names : List (String × Option String)) (lineno : Nat)
  | ifStmt (test : Node) (body : List Node) (orelse : List Node) (lineno : Nat)
  | whileStmt (test : Node) (body : List Node) (orelse : List Node) (lineno : Nat)
  | forStmt (target : Node) (iter : Node) (body : List Node) (orelse : List Node) (lineno : Nat)
  | tryStmt (body : List Node) (handlers : List Node) (orelse : List Node) (finalbody : List Node) (lineno : Nat)
  | exceptHandler (body : List Node) (lineno : Nat)
  | ret (value : Option Node) (lineno : Nat)
  | exprStmt (value : Node) (lineno : Nat)
  | name (id : String) (ctx : Ctx) (lineno : Nat)
  | attrAccess (value : Node) (attr : String) (ctx : Ctx) (lineno : Nat)
  | call (func : Node) (args : List Node) (lineno : Nat)
  | constant (lineno : Nat)
  | lam (body : Node) (lineno : Nat)

/-- Child nodes in the field order used by `ast.iter_child_nodes`.
(Function parameters are plain strings in this embedding, matching that the
analyzer reads them via `node.args.args` rather than by walking `arg`
nodes.) -/
def children : Node → List Node
  | .module body => body
  | .functionDef _ _ body _ => body
  | .classDef _ body _ => body
  | .assign targets value _ => targets ++ [value]
  | .imprt _ _ => []
  | .importFrom _ _ _ => []
  | .ifStmt test body orelse _ => test :: (body ++ orelse)
  | .whileStmt test body orelse _ => test :: (body ++ orelse)
  | .forStmt target iter body orelse _ => target :: iter :: (body ++ orelse)
  | .tryStmt body handlers orelse finalbody _ => body ++ handlers ++ orelse ++ finalbody
  | .exceptHandler body _ => body
  | .ret value _ => value.toList
  | .exprStmt value _ => [value]
  | .name _ _ _ => []
  | .attrAccess value _ _ _ => [value]
  | .call func args _ => func :: args
  | .constant _ => []
  | .lam body _ => [body]

mutual
/-- Number of nodes in a tree (used as the termination measure of `walk`). -/
def Node.size : Node → Nat
  | .module body => 1 + sizeL body
  | .functionDef _ _ body _ => 1 + sizeL body
  | .classDef _ body _ => 1 + sizeL body
  | .assign targets value _ => 1 + sizeL targets + value.size
  | .imprt _ _ => 1
  | .importFrom _ _ _ => 1
  | .ifStmt test body orelse _ => 1 + test.size + sizeL body + sizeL orelse
  | .whileStmt test body orelse _ => 1 + test.size + sizeL body + sizeL orelse
  | .forStmt target iter body orelse _ =>
      1 + target.size + iter.size + sizeL body + sizeL orelse
  | .tryStmt body handlers orelse finalbody _ =>
      1 + sizeL body + sizeL handlers + sizeL orelse + sizeL finalbody
  | .exceptHandler body _ => 1 + sizeL body
  | .ret value _ => 1 + (match value with | some v => v.size | none => 0)
  | .exprStmt value _ => 1 + value.size
  | .name _ _ _ => 1
  | .attrAccess value _ _ _ => 1 + value.size
  | .call func args _ => 1 + func.size + sizeL args
  | .constant _ => 1
  | .lam body _ => 1 + body.size

/-- Total number of nodes in a list of trees. -/
def sizeL : List Node → Nat
  | [] => 0
  | n :: ns => n.size + sizeL ns
end

/-- `ast.walk`: breadth-first traversal.  CPython keeps a FIFO deque, pops
the front node, appends its children at the back, and yields the popped
node; `walk (n :: q) = n :: walk (q ++ children n)` is exactly that loop. -/
def walk : List Node → List Node
  | [] => []
  | n :: q => n :: walk (q ++ children n)
  termination_by l => sizeL l
  decreasing_by
    have happ : ∀ (a b : List Node), sizeL (a ++ b) = sizeL a + sizeL b := by
      intro a b
      induction a with
      | nil => simp [sizeL]
      | cons x xs ih => simp [sizeL, ih]; omega
    have hch : n.size = 1 + sizeL (children n) := by
      cases n <;> simp [Node.size, children, sizeL, happ] <;> try omega
      case ret value lineno => cases value <;> simp [sizeL, Node.size]
    simp [sizeL, happ]
    omega

/-- Concatenate the per-node contributions of one pass over a node list
(the shape of every `for node in ast.walk(tree): ...` loop below). -/
def collectL {α : Type} (f : Node → List α) : List Node → List α
  | [] => []
  | n :: ns => f n ++ collectL f ns

/-- Python `dict` assignment `d[k] = v`: if the key is present its value is
replaced in place (position preserved), otherwise the pair is appended
(insertion order preserved). -/
def dictInsert {α : Type} (d : List (String × α)) (k : String) (v : α) :
    List (String × α) :=
  if d.any (fun p => p.1 == k) then
    d.map (fun p => if p.1 == k then (k, v) else p)
  else
    d ++ [(k, v)]

/-- Python `d[k]` / `d.get(k)` on an insertion-ordered association list. -/
def lookupD {α : Type} (d : List (String × α)) (k : String) : Option α :=
  (d.find? (fun p => p.1 == k)).map (fun p => p.2)

/-- Fold a sequence of `d[k] = v` assignments into a dict, in order. -/
def buildDict {α : Type} : List (String × α) → List (String × α) → List (String × α)
  | d, [] => d
  | d, p :: ps => buildDict (dictInsert d p.1 p.2) ps

/-- A detected issue, as the dicts `{'name': …, 'line': …, 'type': …}`
appended by `_find_unused_variables` / `_find_unused_imports`. -/
structure Finding where
  name : String
  line : Nat
  type : String
deriving DecidableEq, Repr

/-- `str.startswith('_')`: true iff the first character is the underscore
convention marker (written on the character list so the kernel can
evaluate it). -/
def startsUnderscore (s : String) : Bool :=
  match s.data with
  | [] => false
  | c :: _ => c == '_'

/-- `name.split('.')[0]`: the prefix of `name` before the first dot
(written on the character list so the kernel can evaluate it). -/
def rootSegment (s : String) : String :=
  ⟨s.data.takeWhile (fun c => !(c == '.'))⟩

/-- First pass of `_find_unused_variables`: the qualifying bindings a node
contributes, in order — simple-`Name` assignment targets (recorded at the
`Assign` node's line) and function parameters (recorded at the def's line),
skipping names that start with `'_'`. -/
def bindingsOfNode : Node → List (String × Nat)
  | .assign targets _ lineno =>
      targets.filterMap (fun t =>
        match t with
        | .name id _ _ => if startsUnderscore id then none else some (id, lineno)
        | _ => none)
  | .functionDef _ args _ lineno =>
      args.filterMap (fun a => if startsUnderscore a then none else some (a, lineno))
  | _ => []

/-- All qualifying variable bindings of the tree, in `ast.walk` order. -/
def bindingsList (tree : Node) : List (String × Nat) :=
  collectL bindingsOfNode (walk [tree])

/-- `assigned_vars`: dict from variable name to line, built by the first
pass of `_find_unused_variables`. -/
def assignedVars (tree : Node) : List (String × Nat) :=
  buildDict [] (bindingsList tree)

/-- Second pass of `_find_unused_variables`: names a node contributes to
`used_vars` — any `Name` in `Load` context, and the callee name of a direct
call. -/
def usedVarsOfNode : Node → List String
  | .name id .load _ => [id]
  | .call func _ _ =>
      match func with
      | .name id _ _ => [id]
      | _ => []
  | _ => []

/-- The `used_vars` set (membership is all the algorithm consults). -/
def usedVars (tree : Node) : List String :=
  collectL usedVarsOfNode (walk [tree])

/-- `ErrorDetector._find_unused_variables`: report each assigned name not in
`used_vars`, in dict insertion order. -/
def find_unused_variables (tree : Node) : List Finding :=
  (assignedVars tree).filterMap (fun p =>
    if p.1 ∈ usedVars tree then none
    else some ⟨p.1, p.2, "unused_variable"⟩)

/-- Value stored in `imported_names`: `{'full_name': …, 'line': …}`. -/
structure ImportInfo where
  fullName : String
  line : Nat
deriving DecidableEq, Repr

/-- Import bindings a node contributes to `imported_names`.  For `import X`
the key is the bound name's root segment before the first dot (the alias if
present, else the module path); for `from M import X` the key is the alias
if present else `X`, with `*` entries skipped.  The stored `full_name` is
the imported name (for plain imports) or `M.X` when a module is present
(Python's `if node.module` truthiness: `None` and `''` both fall back). -/
def importBindingsOfNode : Node → List (String × ImportInfo)
  | .imprt names lineno =>
      names.map (fun a =>
        let nm := match a.2 with
          | some asname => asname
          | none => a.1
        (rootSegment nm, ⟨a.1, lineno⟩))
  | .importFrom mod names lineno =>
      names.filterMap (fun a =>
        if a.1 = "*" then none
        else
          let nm := match a.2 with
            | some asname => asname
            | none => a.1
          let full := match mod with
            | some m => if m = "" then a.1 else m ++ "." ++ a.1
            | none => a.1
          some (nm, ⟨full, lineno⟩))
  | _ => []

/-- All import bindings of the tree, in `ast.walk` order. -/
def importBindingsList (tree : Node) : List (String × ImportInfo) :=
  collectL importBindingsOfNode (walk [tree])

/-- `imported_names`: dict from bound name to import info. -/
def importedNames (tree : Node) : List (String × ImportInfo) :=
  buildDict [] (importBindingsList tree)

/-- Names a node contributes to `used_names` in `_find_unused_imports`:
any `Name` (in **any** context), and the base identifier of an attribute
access whose value is a `Name`. -/
def usedNamesOfNode : Node → List String
  | .name id _ _ => [id]
  | .attrAccess value _ _ _ =>
      match value with
      | .name id _ _ => [id]
      | _ => []
  | _ => []

/-- The `used_names` set of `_find_unused_imports`. -/
def usedNames (tree : Node) : List String :=
  collectL usedNamesOfNode (walk [tree])

/-- `ErrorDetector._find_unused_imports`: report each import whose bound
name is not in `used_names`; the finding's `name` is the stored
`full_name`, not the bound key. -/
def find_unused_imports (tree : Node) : List Finding :=
  (importedNames tree).filterMap (fun p =>
    if p.1 ∈ usedNames tree then none
    else some ⟨p.2.fullName, p.2.line, "unused_import"⟩)

/-- A Python exception escaping `ast.parse` (or raised inside the guarded
region of `parse_code`): a `SyntaxError` carrying `lineno`/`msg`, or any
other exception rendered by `str(e)`.  `lineno`/`msg` are `"None"` when the
engine supplies none, matching f-string interpolation of `None`. -/
inductive PyExn where
  | syntaxError (lineno : String) (msg : String)
  | other (msg : String)
deriving DecidableEq, Repr

/-- The error strings produced by `parse_code`'s two `except` clauses. -/
def formatExn : PyExn → String
  | .syntaxError lineno msg => "Syntax Error at line " ++ lineno ++ ": " ++ msg
  | .other msg => "Parsing Error: " ++ msg

/-- The result dict `{'unused_vars': …, 'unused_imports': …}`. -/
structure DetectResult where
  unused_vars : List Finding
  unused_imports : List Finding
deriving DecidableEq, Repr

/-- The detector's instance state (`self.unused_vars`,
`self.unused_imports`), overwritten by each `detect_errors` call. -/
structure ErrorDetector where
  unused_vars : List Finding := []
  unused_imports : List Finding := []
deriving DecidableEq, Repr

/-- `ErrorDetector.detect_errors`: when no pre-parsed tree is given, parse
the code, returning `{'unused_vars': [], 'unused_imports': []}` with the
instance state untouched if parsing raises (`except: return …`); otherwise
recompute both finding lists from the tree, store them on the instance and
return them.  `astParse` models Python's builtin `ast.parse` (the external
grammar engine). -/
def ErrorDetector.detect_errors (self : ErrorDetector)
    (astParse : String → Except PyExn Node) (code : String)
    (ast_tree : Option Node) : ErrorDetector × DetectResult :=
  let tree? : Option Node :=
    match ast_tree with
    | some t => some t
    | none =>
        match astParse code with
        | .ok t => some t
        | .error _ => none
  match tree? with
  | none => (self, ⟨[], []⟩)
  | some tree =>
      let uv := find_unused_variables tree
      let ui := find_unused_imports tree
      (⟨uv, ui⟩, ⟨uv, ui⟩)

/-- One entry of `metadata['functions']`. -/
structure FunctionMeta where
  name : String
  line : Nat
  args : List String
deriving DecidableEq, Repr

/-- One entry of `metadata['classes']`. -/
structure ClassMeta where
  name : String
  line : Nat
deriving DecidableEq, Repr

/-- One entry of `metadata['imports']` (`fromModule` is the extra `'from'`
key present only for `from … import …` entries). -/
structure ImportMeta where
  name : String
  asname : Option String
  line : Nat
  fromModule : Option String
deriving DecidableEq, Repr

/-- One entry of `metadata['variables']`. -/
structure VariableMeta where
  name : String
  line : Nat
deriving DecidableEq, Repr

/-- The metadata record of `CodeParser._extract_metadata`; `total_lines` is
initialised to 0 and never updated by the source. -/
structure Metadata where
  functions : List FunctionMeta := []
  classes : List ClassMeta := []
  imports : List ImportMeta := []
  vars : List VariableMeta := []
  total_lines : Nat := 0
deriving DecidableEq, Repr

/-- What one walked node appends to the metadata record. -/
def metadataStep (md : Metadata) (n : Node) : Metadata :=
  match n with
  | .functionDef nm args _ lineno =>
      { md with functions := md.functions ++ [⟨nm, lineno, args⟩] }
  | .classDef nm _ lineno =>
      { md with classes := md.classes ++ [⟨nm, lineno⟩] }
  | .imprt names lineno =>
      { md with imports := md.imports ++
          names.map (fun a => ⟨a.1, a.2, lineno, none⟩) }
  | .importFrom mod names lineno =>
      let m := match mod with
        | some s => s
        | none => ""
      { md with imports := md.imports ++
          names.map (fun a =>
            ⟨if m = "" then a.1 else m ++ "." ++ a.1, a.2, lineno, some m⟩) }
  | .assign targets _ lineno =>
      { md with vars := md.vars ++
          targets.filterMap (fun t =>
            match t with
            | .name id _ _ => some ⟨id, lineno⟩
            | _ => none) }
  | _ => md

/-- `CodeParser._extract_metadata`: a single `ast.walk` accumulating
function, class, import and simple-assignment records. -/
def extract_metadata (tree : Node) : Metadata :=
  (walk [tree]).foldl metadataStep {}

/-- The result dict of `CodeParser.parse_code`. -/
structure ParseResult where
  success : Bool
  ast : Option Node
  error : Option String
  metadata : Metadata

/-- The control flow of `CodeParser.parse_code`'s `try`/`except`: on a parse
failure the matching handler formats the error with `success` still `False`;
after a successful parse `success` and `ast` are already set, so an
exception raised by metadata extraction reaches the same handlers, which
record its message in `error` while `success` stays `True` and `metadata`
keeps its initial `{}`. -/
def parse_code_with (parseRes : Except PyExn Node)
    (metaOf : Node → Except PyExn Metadata) : ParseResult :=
  match parseRes with
  | .error e => { success := false, ast := none, error := some (formatExn e), metadata := {} }
  | .ok tree =>
      match metaOf tree with
      | .ok md => { success := true, ast := some tree, error := none, metadata := md }
      | .error e =>
          { success := true, ast := some tree, error := some (formatExn e), metadata := {} }

/-- `CodeParser.parse_code` with the actual (total) metadata extractor. -/
def parse_code (astParse : String → Except PyExn Node) (code : String) : ParseResult :=
  parse_code_with (astParse code) (fun t => Except.ok (extract_metadata t))

/-- Node weights of `CodeParser.get_complexity_score`: `If`/`While`/`For`
+1, `FunctionDef` +2, `ClassDef` +3, `Try`/`ExceptHandler` +1. -/
def parserNodeWeight : Node → Nat
  | .ifStmt _ _ _ _ => 1
  | .whileStmt _ _ _ _ => 1
  | .forStmt _ _ _ _ _ => 1
  | .functionDef _ _ _ _ => 2
  | .classDef _ _ _ => 3
  | .tryStmt _ _ _ _ _ => 1
  | .exceptHandler _ _ => 1
  | _ => 0

/-- Node weights of `AISuggestor._estimate_complexity`: same table plus
`Lambda` +1. -/
def suggestorNodeWeight : Node → Nat
  | .ifStmt _ _ _ _ => 1
  | .whileStmt _ _ _ _ => 1
  | .forStmt _ _ _ _ _ => 1
  | .functionDef _ _ _ _ => 2
  | .classDef _ _ _ => 3
  | .tryStmt _ _ _ _ _ => 1
  | .exceptHandler _ _ => 1
  | .lam _ _ => 1
  | _ => 0

/-- Accumulate a weight over one full `ast.walk`. -/
def walkScore (w : Node → Nat) (tree : Node) : Nat :=
  ((walk [tree]).map w).sum

/-- `CodeParser.get_complexity_score`: re-parse and accumulate the weight
table over the tree; any parse failure degrades to 0 (`except: return 0`). -/
def get_complexity_score (astParse : String → Except PyExn Node) (code : String) : Nat :=
  match astParse code with
  | .ok tree => walkScore parserNodeWeight tree
  | .error _ => 0

/-- `AISuggestor._estimate_complexity`: same shape, with the `Lambda`
weight, degrading to 0 on parse failure. -/
def estimate_complexity (astParse : String → Except PyExn Node) (code : String) : Nat :=
  match astParse code with
  | .ok tree => walkScore suggestorNodeWeight tree
  | .error _ => 0

mutual
/-- Structurally recursive total weight of one tree (proved equal to the
walk-accumulated score below). -/
def scoreT (w : Node → Nat) : Node → Nat
  | .module body => w (.module body) + scoreL w body
  | .functionDef nm args body lineno =>
      w (.functionDef nm args body lineno) + scoreL w body
  | .classDef nm body lineno => w (.classDef nm body lineno) + scoreL w body
  | .assign targets value lineno =>
      w (.assign targets value lineno) + scoreL w targets + scoreT w value
  | .imprt names lineno => w (.imprt names lineno)
  | .importFrom mod names lineno => w (.importFrom mod names lineno)
  | .ifStmt test body orelse lineno =>
      w (.ifStmt test body orelse lineno) + scoreT w test + scoreL w body + scoreL w orelse
  | .whileStmt test body orelse lineno =>
      w (.whileStmt test body orelse lineno) + scoreT w test + scoreL w body + scoreL w orelse
  | .forStmt target iter body orelse lineno =>
      w (.forStmt target iter body orelse lineno) + scoreT w target + scoreT w iter +
        scoreL w body + scoreL w orelse
  | .tryStmt body handlers orelse finalbody lineno =>
      w (.tryStmt body handlers orelse finalbody lineno) + scoreL w body +
        scoreL w handlers + scoreL w orelse + scoreL w finalbody
  | .exceptHandler body lineno => w (.exceptHandler body lineno) + scoreL w body
  | .ret value lineno =>
      w (.ret value lineno) + (match value with | some v => scoreT w v | none => 0)
  | .exprStmt value lineno => w (.exprStmt value lineno) + scoreT w value
  | .name id ctx lineno => w (.name id ctx lineno)
  | .attrAccess value attr ctx lineno =>
      w (.attrAccess value attr ctx lineno) + scoreT w value
  | .call func args lineno => w (.call func args lineno) + scoreT w func + scoreL w args
  | .constant lineno => w (.constant lineno)
  | .lam body lineno => w (.lam body lineno) + scoreT w body

/-- Total weight of a list of trees. -/
def scoreL (w : Node → Nat) : List Node → Nat
  | [] => 0
  | n :: ns => scoreT w n + scoreL w ns
end


/-- The `lineno` of a node.  CPython's `Module` carries no `lineno`; it is
reported as 1 here (it never contributes a finding). -/
def lineOf : Node → Nat
  | .module _ => 1
  | .functionDef _ _ _ lineno => lineno
  | .classDef _ _ lineno => lineno
  | .assign _ _ lineno => lineno
  | .imprt _ lineno => lineno
  | .importFrom _ _ lineno => lineno
  | .ifStmt _ _ _ lineno => lineno
  | .whileStmt _ _ _ lineno => lineno
  | .forStmt _ _ _ _ lineno => lineno
  | .tryStmt _ _ _ _ lineno => lineno
  | .exceptHandler _ lineno => lineno
  | .ret _ lineno => lineno
  | .exprStmt _ lineno => lineno
  | .name _ _ lineno => lineno
  | .attrAccess _ _ _ lineno => lineno
  | .call _ _ lineno => lineno
  | .constant lineno => lineno
  | .lam _ lineno => lineno

/-- `len(code.split('\\n'))`: the number of lines of the source text, i.e.
one more than the number of newline characters. -/
def numLines (code : String) : Nat :=
  (code.data.filter (fun c => c == '\n')).length + 1

/-- Whether a node is an attribute access whose base value is the
identifier `al` (the shape `_find_unused_imports` counts as a use of
`al`). -/
def attrBaseIs (al : String) : Node → Bool := fun n =>
  match n with
  | .attrAccess (.name id _ _) _ _ _ => id == al
  | _ => false

/-- The end-to-end scenario source text of the spec. -/
def c1_src : String := "import os\n\ndef example():\n    x = 10\n    return 5\n"

/-- The AST Python's grammar engine produces for `c1_src` (`ast.parse` is
external to the repository; this tree is its documented output for that
source): `import os` at line 1, `def example()` at line 3 with `x = 10` at
line 4 and `return 5` at line 5. -/
def c1_tree : Node :=
  .module [
    .imprt [("os", none)] 1,
    .functionDef "example" [] [
      .assign [.name "x" .store 4] (.constant 4) 4,
      .ret (some (.constant 5)) 5] 3]

/-- The tree of the source `import _m` (an underscore-prefixed bound
alias of a plain import, used by the C3 counterexample). -/
def c3_tree : Node := .module [.imprt [("_m", none)] 1]

/-- The tree of the source `x = 10` at line 4 inside a module (used by the
C3 witness). -/
def c3_wtree : Node := .module [.assign [.name "x" .store 4] (.constant 4) 4]

/-- The tree of `import os.path as p` (line 1) followed by `p.join()`
(line 2) — the C4 witness scenario. -/
def c4_tree : Node :=
  .module [
    .imprt [("os.path", some "p")] 1,
    .exprStmt (.call (.attrAccess (.name "p" .load 2) "join" .load 2) [] 2) 2]

/-- The tree of `x = 1` (line 1) followed by `x = 2` (line 2), binding the
same name twice — the C5 witness scenario. -/
def c5_tree : Node :=
  .module [
    .assign [.name "x" .store 1] (.constant 1) 1,
    .assign [.name "x" .store 2] (.constant 2) 2]

/-- The tree of the one-line source `import os` — the C8 witness scenario. -/
def c8_tree : Node := .module [.imprt [("os", none)] 1]

/-- The tree of `import os.path as p` alone (alias never used) — the C10
witness scenario. -/
def c10_tree : Node := .module [.imprt [("os.path", some "p")] 1]

theorem sizeL_append (l₁ l₂ : List Node) : sizeL (l₁ ++ l₂) = sizeL l₁ + sizeL l₂ := by
  induction l₁ with
  | nil => simp [sizeL]
  | cons n ns ih => simp [sizeL, ih]; omega

theorem size_eq_children (n : Node) : n.size = 1 + sizeL (children n) := by
  cases n <;> simp [Node.size, children, sizeL, sizeL_append] <;> try omega
  case ret value lineno => cases value <;> simp [sizeL, Node.size]

theorem walk_nil : walk [] = [] := by simp [walk]

theorem walk_cons (n : Node) (q : List Node) :
    walk (n :: q) = n :: walk (q ++ children n) := by
  simp [walk]

theorem mem_collectL {α : Type} (f : Node → List α) (l : List Node) (a : α) :
    a ∈ collectL f l ↔ ∃ n ∈ l, a ∈ f n := by
  induction l with
  | nil => simp [collectL]
  | cons n ns ih => simp [collectL, ih]

theorem find?_replace_ne {α : Type} (d : List (String × α)) (k k' : String) (v : α)
    (h : k' ≠ k) :
    (d.map (fun p => if p.1 == k then (k, v) else p)).find? (fun p => p.1 == k') =
      d.find? (fun p => p.1 == k') := by
  induction d with
  | nil => simp
  | cons p ps ih =>
    by_cases hpk : p.1 = k
    · simp only [beq_iff_eq] at ih
      simp [List.find?_cons, hpk, Ne.symm h, ih, -List.find?_map]
    · by_cases hpk' : p.1 = k'
      · simp [List.find?_cons, hpk, hpk', h, -List.find?_map]
      · simp only [beq_iff_eq] at ih
        simp [List.find?_cons, hpk, hpk', ih, -List.find?_map]

theorem find?_replace_self {α : Type} (d : List (String × α)) (k : String) (v : α)
    (h : d.any (fun p => p.1 == k) = true) :
    (d.map (fun p => if p.1 == k then (k, v) else p)).find? (fun p => p.1 == k) =
      some (k, v) := by
  induction d with
  | nil => simp at h
  | cons p ps ih =>
    by_cases hpk : p.1 = k
    · simp [List.find?_cons, hpk, -List.find?_map]
    · have hany : ps.any (fun p => p.1 == k) = true := by
        simp only [List.any_cons, Bool.or_eq_true] at h
        rcases h with h | h
        · exact absurd (by simpa using h) hpk
        · exact h
      have ih' := ih hany
      simp only [beq_iff_eq] at ih'
      simp [List.find?_cons, hpk, ih', -List.find?_map]

theorem lookupD_dictInsert {α : Type} (d : List (String × α)) (k k' : String) (v : α) :
    lookupD (dictInsert d k v) k' = if k' = k then some v else lookupD d k' := by
  unfold dictInsert lookupD
  by_cases hany : d.any (fun p => p.1 == k) = true
  · simp only [hany, if_true]
    rcases eq_or_ne k' k with h | h
    · subst h
      rw [find?_replace_self d k' v hany]
      simp
    · rw [find?_replace_ne d k k' v h]
      simp [h]
  · simp only [hany, if_false, List.find?_append]
    rcases eq_or_ne k' k with h | h
    · subst h
      have hnone : d.find? (fun p => p.1 == k') = none := by
        rw [List.find?_eq_none]
        intro p hp
        intro hb
        exact hany (List.any_eq_true.mpr ⟨p, hp, hb⟩)
      simp [hnone]
    · have h1 : ((k, v).1 == k') = false := by simp [Ne.symm h]
      simp [h, h1]

theorem lookupD_buildDict {α : Type} (l : List (String × α)) (d : List (String × α))
    (k : String) :
    lookupD (buildDict d l) k =
      ((l.reverse.find? (fun p => p.1 == k)).map (fun p => p.2)).or (lookupD d k) := by
  induction l generalizing d with
  | nil => simp [buildDict]
  | cons p ps ih =>
    simp only [buildDict]
    rw [ih, List.reverse_cons, List.find?_append]
    cases hf : ps.reverse.find? (fun q => q.1 == k) with
    | some q => simp
    | none =>
      simp only [Option.none_or, lookupD_dictInsert]
      by_cases hk : p.1 = k
      · simp [hk]
      · have h1 : (p.1 == k) = false := by simp [hk]
        simp [h1, Ne.symm hk]

/-- Lookup in a dict built from scratch returns the value of the **last**
assignment to that key, matching Python's last-write-wins semantics. -/
theorem lookupD_buildDict_nil {α : Type} (l : List (String × α)) (k : String) :
    lookupD (buildDict [] l) k =
      (l.reverse.find? (fun p => p.1 == k)).map (fun p => p.2) := by
  rw [lookupD_buildDict]
  simp [lookupD]

theorem mem_dictInsert {α : Type} (d : List (String × α)) (k : String) (v : α)
    (q : String × α) (h : q ∈ dictInsert d k v) : q ∈ d ∨ q = (k, v) := by
  unfold dictInsert at h
  split at h
  · rcases List.mem_map.mp h with ⟨p, hp, hq⟩
    by_cases hpk : p.1 = k
    · right
      rw [← hq]
      simp [hpk]
    · left
      have h1 : (p.1 == k) = false := by simp [hpk]
      rw [← hq]
      simp [h1, hp]
  · rcases List.mem_append.mp h with h | h
    · exact Or.inl h
    · simp at h
      exact Or.inr h

theorem mem_buildDict {α : Type} (l : List (String × α)) (d : List (String × α))
    (q : String × α) (h : q ∈ buildDict d l) : q ∈ d ∨ q ∈ l := by
  induction l generalizing d with
  | nil => exact Or.inl h
  | cons p ps ih =>
    rcases ih (dictInsert d p.1 p.2) h with h' | h'
    · rcases mem_dictInsert d p.1 p.2 q h' with h'' | h''
      · exact Or.inl h''
      · right
        simp [h'']
    · right
      exact List.mem_cons_of_mem _ h'

theorem keys_dictInsert_of_any {α : Type} (d : List (String × α)) (k : String) (v : α)
    (h : d.any (fun p => p.1 == k) = true) :
    (dictInsert d k v).map (fun p => p.1) = d.map (fun p => p.1) := by
  unfold dictInsert
  simp only [h, if_true, List.map_map]
  apply List.map_congr_left
  intro p _
  simp only [Function.comp_apply]
  split
  · next hc => simp only [beq_iff_eq] at hc; exact hc.symm
  · rfl

theorem nodupKeys_dictInsert {α : Type} (d : List (String × α)) (k : String) (v : α)
    (h : (d.map (fun p => p.1)).Nodup) :
    ((dictInsert d k v).map (fun p => p.1)).Nodup := by
  by_cases hany : d.any (fun p => p.1 == k) = true
  · rw [keys_dictInsert_of_any d k v hany]
    exact h
  · have e : dictInsert d k v = d ++ [(k, v)] := by
      unfold dictInsert
      simp [hany]
    rw [e]
    simp only [List.map_append, List.map_cons, List.map_nil]
    rw [List.nodup_append]
    refine ⟨h, List.nodup_singleton k, ?_⟩
    intro a ha
    simp only [List.mem_singleton]
    intro hb
    subst hb
    rcases List.mem_map.mp ha with ⟨p, hp, hpa⟩
    exact hany (List.any_eq_true.mpr ⟨p, hp, by simp [hpa]⟩)

theorem nodupKeys_buildDict {α : Type} (l : List (String × α)) (d : List (String × α))
    (h : (d.map (fun p => p.1)).Nodup) :
    ((buildDict d l).map (fun p => p.1)).Nodup := by
  induction l generalizing d with
  | nil => exact h
  | cons p ps ih => exact ih _ (nodupKeys_dictInsert d p.1 p.2 h)

theorem lookupD_of_mem_nodup {α : Type} (d : List (String × α)) (q : String × α)
    (h : q ∈ d) (hn : (d.map (fun p => p.1)).Nodup) : lookupD d q.1 = some q.2 := by
  induction d with
  | nil => simp at h
  | cons p ps ih =>
    rcases List.mem_cons.mp h with h' | h'
    · subst h'
      simp [lookupD, List.find?_cons]
    · have hne : p.1 ≠ q.1 := by
        intro he
        have : q.1 ∈ ps.map (fun p => p.1) := List.mem_map.mpr ⟨q, h', rfl⟩
        rw [← he] at this
        exact (List.nodup_cons.mp (by simpa using hn)).1 this
      have h1 : (p.1 == q.1) = false := by simp [hne]
      have hn' : (ps.map (fun p => p.1)).Nodup := (List.nodup_cons.mp (by simpa using hn)).2
      unfold lookupD at ih ⊢
      rw [List.find?_cons_of_neg _ (by simp [hne])]
      exact ih h' hn'

theorem scoreL_append (w : Node → Nat) (l₁ l₂ : List Node) :
    scoreL w (l₁ ++ l₂) = scoreL w l₁ + scoreL w l₂ := by
  induction l₁ with
  | nil => simp [scoreL]
  | cons n ns ih => simp [scoreL, ih]; omega

theorem scoreT_eq_children (w : Node → Nat) (n : Node) :
    scoreT w n = w n + scoreL w (children n) := by
  cases n <;> simp [scoreT, children, scoreL, scoreL_append] <;> try omega
  case ret value lineno => cases value <;> simp [scoreL, scoreT]

/-- The weight accumulated along a breadth-first walk of a queue equals the
sum of the recursive tree weights of the queue's members. -/
theorem sum_walk_eq_scoreL (w : Node → Nat) (l : List Node) :
    ((walk l).map w).sum = scoreL w l := by
  induction l using walk.induct with
  | case1 => simp [walk, scoreL]
  | case2 n q ih =>
      rw [walk_cons]
      simp only [List.map_cons, List.sum_cons]
      rw [ih, scoreL_append, scoreL]
      have h := scoreT_eq_children w n
      omega

theorem walkScore_eq_scoreT (w : Node → Nat) (tree : Node) :
    walkScore w tree = scoreT w tree := by
  rw [walkScore, sum_walk_eq_scoreL]
  simp [scoreL]

/-- **C1.** For the input `"import os\\n\\ndef example():\\n    x = 10\\n    return 5\\n"`
(whose parse tree is `c1_tree`), the parser succeeds, the detector reports
exactly one unused import `os` at line 1 and one unused variable `x` at
line 4, and the aggregate complexity score is 2. -/
theorem c1_end_to_end (astParse : String → Except PyExn Node) (d : ErrorDetector)
    (h : astParse c1_src = Except.ok c1_tree) :
    (parse_code astParse c1_src).success = true ∧
    (ErrorDetector.detect_errors d astParse c1_src none).2 =
      ⟨[⟨"x", 4, "unused_variable"⟩], [⟨"os", 1, "unused_import"⟩]⟩ ∧
    get_complexity_score astParse c1_src = 2 := by
  refine ⟨?_, ?_, ?_⟩
  · simp [parse_code, parse_code_with, h]
  · simp only [ErrorDetector.detect_errors, h]
    simp [find_unused_variables, find_unused_imports, assignedVars, importedNames,
      bindingsList, importBindingsList, usedVars, usedNames, c1_tree,
      walk_cons, walk_nil, children, collectL, bindingsOfNode, usedVarsOfNode,
      importBindingsOfNode, usedNamesOfNode, buildDict, dictInsert, List.filterMap]
    all_goals decide
  · simp only [get_complexity_score, h]
    simp [walkScore, c1_tree, walk_cons, walk_nil, children, parserNodeWeight]

/-- Witness for C1 at the concrete grammar oracle mapping every string to
`c1_tree`. -/
theorem c1_end_to_end_witness :
    (parse_code (fun _ => Except.ok c1_tree) c1_src).success = true ∧
    (ErrorDetector.detect_errors {} (fun _ => Except.ok c1_tree) c1_src none).2 =
      ⟨[⟨"x", 4, "unused_variable"⟩], [⟨"os", 1, "unused_import"⟩]⟩ ∧
    get_complexity_score (fun _ => Except.ok c1_tree) c1_src = 2 :=
  c1_end_to_end (fun _ => Except.ok c1_tree) {} rfl

/-- **C2.** For every input on which the grammar engine raises (the input
is not syntactically valid), `parse_code` returns `success = false` with a
non-empty error message, and `detect_errors` on that same input with no
pre-parsed tree returns empty finding lists; both are total functions, so
nothing escapes the boundary. -/
theorem c2_malformed_input (astParse : String → Except PyExn Node) (code : String)
    (e : PyExn) (d : ErrorDetector) (h : astParse code = Except.error e) :
    (parse_code astParse code).success = false ∧
    (∃ msg, (parse_code astParse code).error = some msg ∧ msg ≠ "") ∧
    (ErrorDetector.detect_errors d astParse code none).2 = ⟨[], []⟩ := by
  refine ⟨by simp [parse_code, parse_code_with, h],
    ⟨formatExn e, by simp [parse_code, parse_code_with, h], ?_⟩,
    by simp [ErrorDetector.detect_errors, h]⟩
  cases e with
  | syntaxError lineno msg =>
      simp only [formatExn]
      intro hc
      have hlen := congrArg String.length hc
      rw [String.length_append, String.length_append, String.length_append] at hlen
      have h1 : "Syntax Error at line ".length = 21 := by decide
      have h2 : "".length = 0 := by decide
      omega
  | other msg =>
      simp only [formatExn]
      intro hc
      have hlen := congrArg String.length hc
      rw [String.length_append] at hlen
      have h1 : "Parsing Error: ".length = 15 := by decide
      have h2 : "".length = 0 := by decide
      omega

/-- Witness for C2 at a concrete failing oracle and input. -/
theorem c2_malformed_input_witness :
    (parse_code (fun _ => Except.error (.syntaxError "1" "invalid syntax")) "def f(:").success = false ∧
    (∃ msg, (parse_code (fun _ => Except.error (.syntaxError "1" "invalid syntax")) "def f(:").error =
        some msg ∧ msg ≠ "") ∧
    (ErrorDetector.detect_errors {} (fun _ => Except.error (.syntaxError "1" "invalid syntax"))
        "def f(:" none).2 = ⟨[], []⟩ :=
  c2_malformed_input (fun _ => Except.error (.syntaxError "1" "invalid syntax"))
    "def f(:" (.syntaxError "1" "invalid syntax") {} rfl

/-- **C6.** The weight table assigns +1 to conditionals, loops and
handlers, +2 to function definitions and +3 to class definitions, and
inserting one extra conditional node anywhere into a function's body (the
rest of the module unchanged) never decreases the aggregate complexity
score — for `get_complexity_score`'s walk and `_estimate_complexity`'s
walk alike. -/
theorem c6_complexity_monotone (mpre mpost fpre fpost : List Node) (nm : String)
    (args : List String) (fl : Nat) (test : Node) (ifb ife : List Node) (il : Nat) :
    parserNodeWeight (.ifStmt test ifb ife il) = 1 ∧
    parserNodeWeight (.whileStmt test ifb ife il) = 1 ∧
    parserNodeWeight (.exceptHandler ifb il) = 1 ∧
    parserNodeWeight (.functionDef nm args fpre fl) = 2 ∧
    parserNodeWeight (.classDef nm fpre fl) = 3 ∧
    walkScore parserNodeWeight
        (.module (mpre ++ .functionDef nm args (fpre ++ fpost) fl :: mpost)) ≤
      walkScore parserNodeWeight
        (.module (mpre ++
          .functionDef nm args (fpre ++ .ifStmt test ifb ife il :: fpost) fl :: mpost)) ∧
    walkScore suggestorNodeWeight
        (.module (mpre ++ .functionDef nm args (fpre ++ fpost) fl :: mpost)) ≤
      walkScore suggestorNodeWeight
        (.module (mpre ++
          .functionDef nm args (fpre ++ .ifStmt test ifb ife il :: fpost) fl :: mpost)) := by
  refine ⟨rfl, rfl, rfl, rfl, rfl, ?_, ?_⟩ <;>
  · rw [walkScore_eq_scoreT, walkScore_eq_scoreT]
    simp only [scoreT, scoreL_append, scoreL, parserNodeWeight, suggestorNodeWeight]
    omega

/-- **C7.** The detection result is a deterministic function of the code
and tree arguments: it does not depend on the detector state left by
earlier runs, so running `detect_errors` twice on identical input (the
second run starting from the state the first run left behind) yields
identical result dicts. -/
theorem c7_detector_deterministic (d₁ d₂ : ErrorDetector)
    (astParse : String → Except PyExn Node) (code : String) (tree : Option Node) :
    (ErrorDetector.detect_errors d₁ astParse code tree).2 =
      (ErrorDetector.detect_errors d₂ astParse code tree).2 ∧
    (ErrorDetector.detect_errors
        (ErrorDetector.detect_errors d₁ astParse code tree).1 astParse code tree).2 =
      (ErrorDetector.detect_errors d₁ astParse code tree).2 := by
  cases tree with
  | some t => simp [ErrorDetector.detect_errors]
  | none => cases h : astParse code <;> simp [ErrorDetector.detect_errors, h]

/-- **C9 (counterexample).** When metadata extraction fails after a
successful parse, the failure IS surfaced in the result's `error` field
(the claim says it never is): with extractor failure `"boom"`, the result
has `success = true` but `error = some "Parsing Error: boom" ≠ none`. -/
theorem c9_counterexample :
    (parse_code_with (Except.ok (.module []))
        (fun _ => Except.error (.other "boom"))).success = true ∧
    (parse_code_with (Except.ok (.module []))
        (fun _ => Except.error (.other "boom"))).error = some "Parsing Error: boom" ∧
    some "Parsing Error: boom" ≠ (none : Option String) :=
  ⟨rfl, rfl, by simp⟩

/-- **C9 (amended).** If metadata extraction fails after a successful
parse, `parse_code` still returns `success = true` with the tree and empty
metadata, but the exception is caught by `parse_code`'s own handlers and
its formatted message is recorded in the `error` field (rather than being
swallowed silently). -/
theorem c9_metadata_failure_kept_success (t : Node) (e : PyExn) :
    parse_code_with (Except.ok t) (fun _ => Except.error e) =
      { success := true, ast := some t, error := some (formatExn e), metadata := {} } := rfl


theorem bindings_not_underscore (nd : Node) (p : String × Nat)
    (h : p ∈ bindingsOfNode nd) : startsUnderscore p.1 = false := by
  cases nd with
  | assign targets value lineno =>
      simp only [bindingsOfNode, List.mem_filterMap] at h
      rcases h with ⟨t, _, hsome⟩
      cases t <;> simp at hsome
      case name id ctx l =>
        rcases hsome with ⟨hu, hp⟩
        rw [← hp]
        simpa using hu
  | functionDef nm args body lineno =>
      simp only [bindingsOfNode, List.mem_filterMap] at h
      rcases h with ⟨a, _, hsome⟩
      simp at hsome
      rcases hsome with ⟨hu, hp⟩
      rw [← hp]
      simpa using hu
  | module body => simp [bindingsOfNode] at h
  | classDef nm body lineno => simp [bindingsOfNode] at h
  | imprt names lineno => simp [bindingsOfNode] at h
  | importFrom mod names lineno => simp [bindingsOfNode] at h
  | ifStmt test body orelse lineno => simp [bindingsOfNode] at h
  | whileStmt test body orelse lineno => simp [bindingsOfNode] at h
  | forStmt target iter body orelse lineno => simp [bindingsOfNode] at h
  | tryStmt body handlers orelse finalbody lineno => simp [bindingsOfNode] at h
  | exceptHandler body lineno => simp [bindingsOfNode] at h
  | ret value lineno => simp [bindingsOfNode] at h
  | exprStmt value lineno => simp [bindingsOfNode] at h
  | name id ctx lineno => simp [bindingsOfNode] at h
  | attrAccess value attr ctx lineno => simp [bindingsOfNode] at h
  | call func args lineno => simp [bindingsOfNode] at h
  | constant lineno => simp [bindingsOfNode] at h
  | lam body lineno => simp [bindingsOfNode] at h

theorem bindings_line (nd : Node) (p : String × Nat)
    (h : p ∈ bindingsOfNode nd) : p.2 = lineOf nd := by
  cases nd with
  | assign targets value lineno =>
      simp only [bindingsOfNode, List.mem_filterMap] at h
      rcases h with ⟨t, _, hsome⟩
      cases t <;> simp at hsome
      case name id ctx l =>
        rcases hsome with ⟨_, hp⟩
        rw [← hp]
        simp [lineOf]
  | functionDef nm args body lineno =>
      simp only [bindingsOfNode, List.mem_filterMap] at h
      rcases h with ⟨a, _, hsome⟩
      simp at hsome
      rcases hsome with ⟨_, hp⟩
      rw [← hp]
      simp [lineOf]
  | module body => simp [bindingsOfNode] at h
  | classDef nm body lineno => simp [bindingsOfNode] at h
  | imprt names lineno => simp [bindingsOfNode] at h
  | importFrom mod names lineno => simp [bindingsOfNode] at h
  | ifStmt test body orelse lineno => simp [bindingsOfNode] at h
  | whileStmt test body orelse lineno => simp [bindingsOfNode] at h
  | forStmt target iter body orelse lineno => simp [bindingsOfNode] at h
  | tryStmt body handlers orelse finalbody lineno => simp [bindingsOfNode] at h
  | exceptHandler body lineno => simp [bindingsOfNode] at h
  | ret value lineno => simp [bindingsOfNode] at h
  | exprStmt value lineno => simp [bindingsOfNode] at h
  | name id ctx lineno => simp [bindingsOfNode] at h
  | attrAccess value attr ctx lineno => simp [bindingsOfNode] at h
  | call func args lineno => simp [bindingsOfNode] at h
  | constant lineno => simp [bindingsOfNode] at h
  | lam body lineno => simp [bindingsOfNode] at h

theorem importBindings_line (nd : Node) (q : String × ImportInfo)
    (h : q ∈ importBindingsOfNode nd) : q.2.line = lineOf nd := by
  cases nd with
  | imprt names lineno =>
      simp only [importBindingsOfNode, List.mem_map] at h
      rcases h with ⟨a, _, hq⟩
      rw [← hq]
      simp [lineOf]
  | importFrom mod names lineno =>
      simp only [importBindingsOfNode, List.mem_filterMap] at h
      rcases h with ⟨a, _, hsome⟩
      by_cases hstar : a.1 = "*"
      · simp [hstar] at hsome
      · simp [hstar] at hsome
        rw [← hsome]
        simp [lineOf]
  | module body => simp [importBindingsOfNode] at h
  | functionDef nm args body lineno => simp [importBindingsOfNode] at h
  | classDef nm body lineno => simp [importBindingsOfNode] at h
  | assign targets value lineno => simp [importBindingsOfNode] at h
  | ifStmt test body orelse lineno => simp [importBindingsOfNode] at h
  | whileStmt test body orelse lineno => simp [importBindingsOfNode] at h
  | forStmt target iter body orelse lineno => simp [importBindingsOfNode] at h
  | tryStmt body handlers orelse finalbody lineno => simp [importBindingsOfNode] at h
  | exceptHandler body lineno => simp [importBindingsOfNode] at h
  | ret value lineno => simp [importBindingsOfNode] at h
  | exprStmt value lineno => simp [importBindingsOfNode] at h
  | name id ctx lineno => simp [importBindingsOfNode] at h
  | attrAccess value attr ctx lineno => simp [importBindingsOfNode] at h
  | call func args lineno => simp [importBindingsOfNode] at h
  | constant lineno => simp [importBindingsOfNode] at h
  | lam body lineno => simp [importBindingsOfNode] at h

theorem lookupD_some_mem {α : Type} (d : List (String × α)) (k : String) (v : α)
    (h : lookupD d k = some v) : (k, v) ∈ d := by
  unfold lookupD at h
  cases hf : d.find? (fun p => p.1 == k) with
  | none => rw [hf] at h; simp at h
  | some q =>
      rw [hf] at h
      simp at h
      have hq := List.find?_some hf
      have hmem := List.mem_of_find?_eq_some hf
      have hqe : q = (k, v) := by
        cases q with
        | mk q1 q2 =>
            simp at hq h
            exact Prod.ext hq h
      rw [← hqe]
      exact hmem

/-- **C3 (counterexample).** The underscore exemption does NOT extend to
bindings made by imports: for the source `import _m`, the bound name `_m`
IS recorded in `imported_names` and an unused-import finding with the
underscore-prefixed name `_m` IS emitted. -/
theorem c3_counterexample :
    lookupD (importedNames c3_tree) "_m" = some ⟨"_m", 1⟩ ∧
    find_unused_imports c3_tree = [⟨"_m", 1, "unused_import"⟩] ∧
    startsUnderscore "_m" = true := by
  refine ⟨?_, ?_, by decide⟩
  · simp [importedNames, importBindingsList, c3_tree, walk_cons, walk_nil, children,
      collectL, importBindingsOfNode, buildDict, dictInsert, lookupD]
    all_goals decide
  · simp [find_unused_imports, importedNames, importBindingsList, usedNames, c3_tree,
      walk_cons, walk_nil, children, collectL, importBindingsOfNode, usedNamesOfNode,
      buildDict, dictInsert, List.filterMap]

/-- **C3 (amended).** An underscore-prefixed name is never recorded as an
assignment/parameter binding, so no unused-variable finding ever carries an
underscore-prefixed name; import bindings are not exempt (see the
counterexample). -/
theorem c3_underscore_exempt_vars (t : Node) :
    (∀ p ∈ assignedVars t, startsUnderscore p.1 = false) ∧
    (∀ f ∈ find_unused_variables t, startsUnderscore f.name = false) := by
  have hb : ∀ p ∈ assignedVars t, startsUnderscore p.1 = false := by
    intro p hp
    rcases mem_buildDict (bindingsList t) [] p hp with h | h
    · simp at h
    · rcases (mem_collectL bindingsOfNode (walk [t]) p).mp h with ⟨nd, _, hpf⟩
      exact bindings_not_underscore nd p hpf
  refine ⟨hb, ?_⟩
  intro f hf
  rcases List.mem_filterMap.mp hf with ⟨p, hp, hsome⟩
  by_cases hu : p.1 ∈ usedVars t
  · simp [hu] at hsome
  · simp [hu] at hsome
    rw [← hsome]
    exact hb p hp

/-- Witness for the amended C3: the finding for `x = 10` (line 4, unused)
does not carry an underscore-prefixed name. -/
theorem c3_underscore_exempt_vars_witness :
    startsUnderscore (Finding.mk "x" 4 "unused_variable").name = false :=
  (c3_underscore_exempt_vars c3_wtree).2 ⟨"x", 4, "unused_variable"⟩ (by
    simp [find_unused_variables, assignedVars, bindingsList, usedVars, c3_wtree,
      walk_cons, walk_nil, children, collectL, bindingsOfNode, usedVarsOfNode,
      buildDict, dictInsert, List.filterMap])

/-- **C4.** If an attribute access with base identifier `al` occurs
anywhere in the tree, then `al` is in the `used_names` set, and every
emitted unused-import finding stems from a bound name that is not in
`used_names` — in particular not from `al` — so no finding is emitted for
an import bound to `al` (e.g. `import os.path as p` with a later
`p.join(...)`). -/
theorem c4_attr_base_use (t : Node) (al : String)
    (h : (walk [t]).any (attrBaseIs al) = true) :
    al ∈ usedNames t ∧
    ∀ f ∈ find_unused_imports t, ∃ k info, (k, info) ∈ importedNames t ∧
      k ∉ usedNames t ∧ k ≠ al ∧ f = ⟨info.fullName, info.line, "unused_import"⟩ := by
  have hal : al ∈ usedNames t := by
    rcases List.any_eq_true.mp h with ⟨nd, hnd, hb⟩
    have hmem : al ∈ usedNamesOfNode nd := by
      cases nd <;> simp [attrBaseIs] at hb
      case attrAccess value attr ctx lineno =>
        cases value <;> simp at hb
        case name id c l =>
          rw [← hb]
          simp [usedNamesOfNode]
    exact (mem_collectL usedNamesOfNode (walk [t]) al).mpr ⟨nd, hnd, hmem⟩
  refine ⟨hal, ?_⟩
  intro f hf
  rcases List.mem_filterMap.mp hf with ⟨p, hp, hsome⟩
  by_cases hu : p.1 ∈ usedNames t
  · simp [hu] at hsome
  · simp [hu] at hsome
    refine ⟨p.1, p.2, by simpa using hp, hu, ?_, hsome.symm⟩
    intro he
    exact hu (he ▸ hal)

/-- Witness for C4: `import os.path as p` followed by `p.join()` — the base
name `p` counts as used and no finding stems from it. -/
theorem c4_attr_base_use_witness :
    "p" ∈ usedNames c4_tree ∧
    ∀ f ∈ find_unused_imports c4_tree, ∃ k info, (k, info) ∈ importedNames c4_tree ∧
      k ∉ usedNames c4_tree ∧ k ≠ "p" ∧ f = ⟨info.fullName, info.line, "unused_import"⟩ :=
  c4_attr_base_use c4_tree "p" (by
    simp [walk_cons, walk_nil, children, c4_tree, attrBaseIs])

/-- **C5.** When a name is bound more than once, the `assigned_vars` dict
maps it to the line of the **last** binding seen during the walk, and any
unused-variable finding for that name reports that last line. -/
theorem c5_last_binding_wins (t : Node) (n : String)
    (h : 1 < ((bindingsList t).filter (fun p => p.1 == n)).length) :
    lookupD (assignedVars t) n =
      ((bindingsList t).reverse.find? (fun p => p.1 == n)).map (fun p => p.2) ∧
    ∀ f ∈ find_unused_variables t, f.name = n →
      some f.line =
        ((bindingsList t).reverse.find? (fun p => p.1 == n)).map (fun p => p.2) := by
  have h1 : lookupD (assignedVars t) n =
      ((bindingsList t).reverse.find? (fun p => p.1 == n)).map (fun p => p.2) :=
    lookupD_buildDict_nil (bindingsList t) n
  refine ⟨h1, ?_⟩
  intro f hf hn
  rcases List.mem_filterMap.mp hf with ⟨p, hp, hsome⟩
  by_cases hu : p.1 ∈ usedVars t
  · simp [hu] at hsome
  · simp [hu] at hsome
    have hlook : lookupD (assignedVars t) p.1 = some p.2 :=
      lookupD_of_mem_nodup (assignedVars t) p hp
        (nodupKeys_buildDict (bindingsList t) [] (by simp))
    have hname : p.1 = n := by
      rw [← hsome] at hn
      simpa using hn
    have hline : f.line = p.2 := by
      rw [← hsome]
    have h2 : lookupD (assignedVars t) n = some p.2 := by
      rw [← hname]
      exact hlook
    rw [hline, ← h1, h2]

/-- Witness for C5: `x = 1` (line 1) then `x = 2` (line 2); the dict maps
`x` to line 2 and the finding reports line 2. -/
theorem c5_last_binding_wins_witness :
    lookupD (assignedVars c5_tree) "x" =
      ((bindingsList c5_tree).reverse.find? (fun p => p.1 == "x")).map (fun p => p.2) ∧
    ∀ f ∈ find_unused_variables c5_tree, f.name = "x" →
      some f.line =
        ((bindingsList c5_tree).reverse.find? (fun p => p.1 == "x")).map (fun p => p.2) :=
  c5_last_binding_wins c5_tree "x" (by
    simp [bindingsList, c5_tree, walk_cons, walk_nil, children, collectL, bindingsOfNode]
    all_goals decide)

/-- **C8.** If the parse succeeds and — as the external grammar engine
guarantees for its own output — every walked node's line number lies within
`[1, number of lines of the source]`, then every finding the detector emits
(unused variable or unused import) has a line number within that range. -/
theorem c8_lines_in_range (astParse : String → Except PyExn Node) (code : String)
    (t : Node) (d : ErrorDetector) (hp : astParse code = Except.ok t)
    (hl : ∀ n ∈ walk [t], 1 ≤ lineOf n ∧ lineOf n ≤ numLines code) :
    ∀ f ∈ (ErrorDetector.detect_errors d astParse code none).2.unused_vars ++
        (ErrorDetector.detect_errors d astParse code none).2.unused_imports,
      1 ≤ f.line ∧ f.line ≤ numLines code := by
  intro f hf
  have hres : (ErrorDetector.detect_errors d astParse code none).2 =
      ⟨find_unused_variables t, find_unused_imports t⟩ := by
    simp [ErrorDetector.detect_errors, hp]
  rw [hres] at hf
  rcases List.mem_append.mp hf with hf' | hf'
  · rcases List.mem_filterMap.mp hf' with ⟨p, hpmem, hsome⟩
    by_cases hu : p.1 ∈ usedVars t
    · simp [hu] at hsome
    · simp [hu] at hsome
      rcases mem_buildDict (bindingsList t) [] p hpmem with hmem | hmem
      · simp at hmem
      · rcases (mem_collectL bindingsOfNode (walk [t]) p).mp hmem with ⟨nd, hnd, hpf⟩
        have hline := bindings_line nd p hpf
        have hbound := hl nd hnd
        have hfl : f.line = p.2 := by rw [← hsome]
        rw [hfl, hline]
        exact hbound
  · rcases List.mem_filterMap.mp hf' with ⟨p, hpmem, hsome⟩
    by_cases hu : p.1 ∈ usedNames t
    · simp [hu] at hsome
    · simp [hu] at hsome
      rcases mem_buildDict (importBindingsList t) [] p hpmem with hmem | hmem
      · simp at hmem
      · rcases (mem_collectL importBindingsOfNode (walk [t]) p).mp hmem with ⟨nd, hnd, hpf⟩
        have hline := importBindings_line nd p hpf
        have hbound := hl nd hnd
        have hfl : f.line = p.2.line := by rw [← hsome]
        rw [hfl, hline]
        exact hbound

/-- Witness for C8 on the one-line source `import os`: the single finding
(unused import `os`) has its line inside `[1, 1]`. -/
theorem c8_lines_in_range_witness :
    1 ≤ (Finding.mk "os" 1 "unused_import").line ∧
    (Finding.mk "os" 1 "unused_import").line ≤ numLines "import os" :=
  c8_lines_in_range (fun _ => Except.ok c8_tree) "import os" c8_tree {} rfl
    (by
      intro n hn
      simp [walk_cons, walk_nil, children, c8_tree] at hn
      rcases hn with h | h <;> subst h <;> decide)
    ⟨"os", 1, "unused_import"⟩
    (by
      simp [ErrorDetector.detect_errors, find_unused_variables, find_unused_imports,
        assignedVars, importedNames, bindingsList, importBindingsList, usedVars,
        usedNames, c8_tree, walk_cons, walk_nil, children, collectL, bindingsOfNode,
        usedVarsOfNode, importBindingsOfNode, usedNamesOfNode, buildDict, dictInsert,
        List.filterMap])

/-- **C10.** For an unused aliased plain import `import M as a` (the last
binding of the bound alias `a` among imports), the emitted finding's `name` is the
original dotted module path `M` — membership is tested on the bound alias
`a`, but the reported name is the stored full imported name, as it is for
every unused-import finding. -/
theorem c10_full_name_reported (t : Node) (a M : String) (l : Nat)
    (hlast : (importBindingsList t).reverse.find? (fun p => p.1 == a) =
      some (a, ⟨M, l⟩))
    (hunused : a ∉ usedNames t) :
    lookupD (importedNames t) a = some ⟨M, l⟩ ∧
    Finding.mk M l "unused_import" ∈ find_unused_imports t ∧
    ∀ f ∈ find_unused_imports t, ∃ k info, (k, info) ∈ importedNames t ∧
      k ∉ usedNames t ∧ f.name = info.fullName ∧ f.line = info.line := by
  have h1 : lookupD (importedNames t) a = some (⟨M, l⟩ : ImportInfo) := by
    rw [importedNames, lookupD_buildDict_nil, hlast]
    rfl
  refine ⟨h1, ?_, ?_⟩
  · exact List.mem_filterMap.mpr
      ⟨(a, ⟨M, l⟩), lookupD_some_mem (importedNames t) a ⟨M, l⟩ h1, by simp [hunused]⟩
  · intro f hf
    rcases List.mem_filterMap.mp hf with ⟨p, hp, hsome⟩
    by_cases hu : p.1 ∈ usedNames t
    · simp [hu] at hsome
    · simp [hu] at hsome
      refine ⟨p.1, p.2, by simpa using hp, hu, ?_, ?_⟩
      · rw [← hsome]
      · rw [← hsome]

/-- Witness for C10: `import os.path as p` with `p` never used — the
finding is named `os.path`, not `p`. -/
theorem c10_full_name_reported_witness :
    lookupD (importedNames c10_tree) "p" = some ⟨"os.path", 1⟩ ∧
    Finding.mk "os.path" 1 "unused_import" ∈ find_unused_imports c10_tree ∧
    ∀ f ∈ find_unused_imports c10_tree, ∃ k info, (k, info) ∈ importedNames c10_tree ∧
      k ∉ usedNames c10_tree ∧ f.name = info.fullName ∧ f.line = info.line :=
  c10_full_name_reported c10_tree "p" "os.path" 1
    (by
      simp [importBindingsList, c10_tree, walk_cons, walk_nil, children, collectL,
        importBindingsOfNode]
      all_goals decide)
    (by
      simp [usedNames, c10_tree, walk_cons, walk_nil, children, collectL,
        usedNamesOfNode])

end CodeRev
